import Mathlib

/-!
Formal model of `mnist_cnn2.py`.

The repository is a single Keras training script.  The definitions below
shallow-embed the parts of its behaviour the specification talks about:
the training controller that `train` configures (an `EarlyStopping`
callback with patience 10 and a `ModelCheckpoint` callback with
`monitor='val_loss'`, `mode='min'`, `save_best_only=True`, one fixed file
name), the layer stack of `create_model`, the pixel normalization and
one-hot encoding of `load_data`, the argmax-based prediction report of
`main`, and the with-replacement index sampling of `np.random.choice`.

Numeric values (losses, activations, pixels) are modelled as exact
rationals; the softmax head is modelled over the reals.  The semantics of
the Keras callback objects, of `ImageDataGenerator`, of `to_categorical`
and of `np.argmax` / `np.random.choice` are not part of this repository's
source; where they decide a property they are modelled from the spec, as
marked in the corresponding doc comments.
-/

namespace MnistCnn2

/-! ### Training controller (`train`, lines 71-94, and `main`, line 144)

`v e` denotes the validation loss measured at the end of 0-based epoch `e`
by `model.fit`'s validation pass.  The controller state collects the
fields of the two callbacks plus the single checkpoint artifact slot
(`'bestModel/mc2.keras'` holds at most one snapshot; each write replaces
the previous one).  The artifact is represented by the epoch whose
parameters it stores. -/

/-- State of the epoch loop: epoch counter, `EarlyStopping`'s best loss and
wait counter, the stop flag, `ModelCheckpoint`'s best loss, the checkpoint
artifact (epoch whose parameter snapshot the single file currently holds),
and whether the most recent epoch wrote the file. -/
structure Ctrl where
  epoch : ℕ
  esBest : Option ℚ
  wait : ℕ
  stopped : Bool
  cpBest : Option ℚ
  artifact : Option ℕ
  wrote : Bool
deriving Repr, DecidableEq

/-- Callback state before the first epoch: no best loss seen, wait counter
zero, no checkpoint written yet. -/
def ctrlInit : Ctrl := ⟨0, none, 0, false, none, none, false⟩

/-- Modelled from the spec: one epoch of the Keras `fit` loop as configured
at lines 72-93 — after the epoch's validation loss `v s.epoch` is known,
`EarlyStopping(patience=10)` resets its wait counter on a strict
improvement of the best seen loss and otherwise increments it, stopping
once the counter reaches 10; `ModelCheckpoint(save_best_only=True,
mode='min')` overwrites the single artifact file exactly when the loss
strictly improves on its recorded best (or no best exists yet). -/
def stepEpoch (v : ℕ → ℚ) (s : Ctrl) : Ctrl :=
  let cur := v s.epoch
  let esImp : Bool :=
    match s.esBest with
    | none => true
    | some b => decide (cur < b)
  let wait1 := if esImp then 0 else s.wait + 1
  let esBest1 := if esImp then some cur else s.esBest
  let stop1 : Bool := decide (10 ≤ wait1) && decide (0 < s.epoch)
  let cpImp : Bool :=
    match s.cpBest with
    | none => true
    | some b => decide (cur < b)
  { epoch := s.epoch + 1
    esBest := esBest1
    wait := wait1
    stopped := stop1
    cpBest := if cpImp then some cur else s.cpBest
    artifact := if cpImp then some s.epoch else s.artifact
    wrote := cpImp }

/-- Run at most `n` further epochs, stopping early once the stop flag is
set (Keras checks `stop_training` before starting the next epoch). -/
def runFor (v : ℕ → ℚ) : ℕ → Ctrl → Ctrl
  | 0, s => s
  | n + 1, s => if s.stopped then s else runFor v n (stepEpoch v s)

/-- Controller state after at most `k` epochs from the initial state. -/
def ctrlIter (v : ℕ → ℚ) (k : ℕ) : Ctrl := runFor v k ctrlInit

/-- The whole training run: `main` calls `train(model, 128, 200, ...)`
(line 144), so the hard epoch cap is 200. -/
def runTrain (v : ℕ → ℚ) : Ctrl := ctrlIter v 200

/-- Minimum validation loss over epochs `0..k` (inclusive). -/
def bestOf (v : ℕ → ℚ) : ℕ → ℚ
  | 0 => v 0
  | k + 1 => min (bestOf v k) (v (k + 1))

/-- First (lowest) epoch in `0..k` attaining the minimum validation loss. -/
def firstMin (v : ℕ → ℚ) : ℕ → ℕ
  | 0 => 0
  | k + 1 => if v (k + 1) < bestOf v k then k + 1 else firstMin v k

/-- Epoch `e` strictly improves on every earlier epoch's validation loss. -/
def improving (v : ℕ → ℚ) (e : ℕ) : Prop := ∀ j, j < e → v e < v j

/-- Reachability invariant tying the callback state after any number of
epochs to the validation-loss history: both callbacks' recorded bests are
the running minimum, the artifact holds the first minimising epoch, and
the wait counter measures the distance to the last strictly improving
epoch. -/
def TrackerOK (v : ℕ → ℚ) (s : Ctrl) : Prop :=
  (s.epoch = 0 ∧ s.esBest = none ∧ s.cpBest = none ∧ s.artifact = none ∧
    s.wait = 0 ∧ s.stopped = false)
  ∨ (∃ k, s.epoch = k + 1
      ∧ s.esBest = some (bestOf v k)
      ∧ s.cpBest = some (bestOf v k)
      ∧ s.artifact = some (firstMin v k)
      ∧ (s.stopped = false →
          ∃ e, e ≤ k ∧ improving v e ∧ k + 1 = e + 1 + s.wait ∧ s.wait < 10)
      ∧ (s.stopped = true → ∃ e, e ≤ k ∧ improving v e ∧ k + 1 ≤ e + 11))

/-- Line 147 of `main`: `model.load_weights("bestModel/mc2.keras")` — the
parameters used for the final `evaluate` (line 149) and `model.predict`
(line 154) are the ones read back from the checkpoint artifact, not the
live post-training parameters.  `paramsOf e` is the parameter snapshot
taken at the end of epoch `e`. -/
def loadedWeights {P : Type} (v : ℕ → ℚ) (paramsOf : ℕ → P) : Option P :=
  (runTrain v).artifact.map paramsOf

/-! ### Model architecture (`create_model`, lines 27-69)

Activations are rational-valued tensors indexed by position and channel.
The learned linear maps (the three `Conv2D` filter banks with `'same'`
padding — which keeps the spatial size, as the index types show — and the
two `Dense` layers) are opaque parameters collected in `NetParams`; the
structural layers (`relu`, `Dropout`, `MaxPool2D`, `Flatten`, `softmax`)
are concrete. -/

/-- Pointwise rectifier `relu`. -/
def reluF {ι : Type} (a : ι → ℚ) : ι → ℚ := fun i => max (a i) 0

/-- Modelled from the spec: a Keras `Dropout(rate)` layer.  In training
mode it zeroes the units whose mask bit is false and rescales the kept
units by `1/(1-rate)` (inverted dropout); in inference mode it is the
identity, independent of the mask. -/
def dropoutF {ι : Type} (training : Bool) (rate : ℚ) (m : ι → Bool)
    (a : ι → ℚ) : ι → ℚ :=
  fun i => if training then (if m i then a i / (1 - rate) else 0) else a i

/-- A `MaxPool2D(pool_size=(2,2))` layer with the default stride 2:
output cell `(i,j)` is the maximum of the 2×2 input block at
`(2i..2i+1, 2j..2j+1)`; a trailing odd row/column is dropped (28→14,
14→7, 7→3). -/
def pool2x2 {hi wi ho wo c : ℕ} (h1 : 2 * ho ≤ hi) (h2 : 2 * wo ≤ wi)
    (a : Fin hi × Fin wi × Fin c → ℚ) : Fin ho × Fin wo × Fin c → ℚ :=
  fun p =>
    match p with
    | (⟨i, hio⟩, ⟨j, hjo⟩, ch) =>
      max (max (a (⟨2 * i, by omega⟩, ⟨2 * j, by omega⟩, ch))
               (a (⟨2 * i, by omega⟩, ⟨2 * j + 1, by omega⟩, ch)))
          (max (a (⟨2 * i + 1, by omega⟩, ⟨2 * j, by omega⟩, ch))
               (a (⟨2 * i + 1, by omega⟩, ⟨2 * j + 1, by omega⟩, ch)))

/-- The `Flatten` layer after the third pooling stage: the 3×3×256 tensor
becomes a vector of 3·3·256 = 2304 features (row, column, channel order). -/
def flatten2304 (a : Fin 3 × Fin 3 × Fin 256 → ℚ) : Fin 2304 → ℚ :=
  fun k =>
    match k with
    | ⟨kv, hk⟩ =>
      a (⟨kv / 768, by omega⟩, ⟨kv % 768 / 256, by omega⟩, ⟨kv % 256, by omega⟩)

/-- The learned parameters: the three convolution stages (64, 128, 256
filters, `'same'` padding so the spatial extent is preserved) and the two
dense layers (128 units, then 10 units), as opaque linear maps. -/
structure NetParams where
  conv1 : (Fin 28 × Fin 28 → ℚ) → Fin 28 × Fin 28 × Fin 64 → ℚ
  conv2 : (Fin 14 × Fin 14 × Fin 64 → ℚ) → Fin 14 × Fin 14 × Fin 128 → ℚ
  conv3 : (Fin 7 × Fin 7 × Fin 128 → ℚ) → Fin 7 × Fin 7 × Fin 256 → ℚ
  dense1 : (Fin 2304 → ℚ) → Fin 128 → ℚ
  dense2 : (Fin 128 → ℚ) → Fin 10 → ℚ

/-- The random masks of the four `Dropout` layers (rates 0.1, 0.1, 0.1,
0.2), one bit per unit; `true` keeps the unit. -/
structure DropMasks where
  m1 : Fin 28 × Fin 28 × Fin 64 → Bool
  m2 : Fin 14 × Fin 14 × Fin 128 → Bool
  m3 : Fin 7 × Fin 7 × Fin 256 → Bool
  m4 : Fin 128 → Bool

/-- Modelled from the spec: the final `softmax` activation of the width-10
`Dense` head (line 61-63), over the reals. -/
noncomputable def softmax10 (z : Fin 10 → ℚ) : Fin 10 → ℝ :=
  fun i => Real.exp (z i) / ∑ j, Real.exp (z j)

/-- The forward pass of the `Sequential` model built in `create_model`:
conv(64)+relu, dropout 0.1, maxpool; conv(128)+relu, dropout 0.1, maxpool;
conv(256)+relu, dropout 0.1, maxpool; flatten; dense(128)+relu,
dropout 0.2; dense(10)+softmax. -/
noncomputable def forward (net : NetParams) (training : Bool) (m : DropMasks)
    (x : Fin 28 × Fin 28 → ℚ) : Fin 10 → ℝ :=
  let a1 := reluF (net.conv1 x)
  let d1 := dropoutF training (1/10) m.m1 a1
  let p1 : Fin 14 × Fin 14 × Fin 64 → ℚ := pool2x2 (by omega) (by omega) d1
  let a2 := reluF (net.conv2 p1)
  let d2 := dropoutF training (1/10) m.m2 a2
  let p2 : Fin 7 × Fin 7 × Fin 128 → ℚ := pool2x2 (by omega) (by omega) d2
  let a3 := reluF (net.conv3 p2)
  let d3 := dropoutF training (1/10) m.m3 a3
  let p3 : Fin 3 × Fin 3 × Fin 256 → ℚ := pool2x2 (by omega) (by omega) d3
  let f0 := flatten2304 p3
  let a4 := reluF (net.dense1 f0)
  let d4 := dropoutF training (1/5) m.m4 a4
  softmax10 (net.dense2 d4)

/-! ### Dropout mask distribution

Each mask bit is an independent Bernoulli draw: kept with probability
`1 - rate`, dropped with probability `rate`.  `pairP` is the probability
of an event over two independent mask draws for one layer of `n` units. -/

/-- Modelled from the spec: the Bernoulli weight of one mask bit (`true`
keeps the unit, probability `1 - rate`). -/
def keepW (rate : ℚ) : Bool → ℚ := fun b => if b then 1 - rate else rate

/-- Probability of drawing the mask `m` for an `n`-unit layer. -/
def maskP (rate : ℚ) {n : ℕ} (m : Fin n → Bool) : ℚ :=
  ∏ i, keepW rate (m i)

/-- Probability of the event `E` over two independent mask draws. -/
def pairP (rate : ℚ) (n : ℕ) (E : (Fin n → Bool) → (Fin n → Bool) → Prop)
    [∀ m m', Decidable (E m m')] : ℚ :=
  ∑ m : Fin n → Bool, ∑ m' : Fin n → Bool,
    if E m m' then maskP rate m * maskP rate m' else 0

/-! ### Augmentation pipeline (`train`, lines 80-87)

`ImageDataGenerator` is external library code; its per-draw transform is
modelled from the spec. -/

/-- An MNIST image: a 28×28 rational grid (one channel). -/
abbrev ImageQ := Fin 28 × Fin 28 → ℚ

/-- Parameters of one random geometric transform drawn by the pipeline. -/
structure AugParams where
  theta : ℚ
  tx : ℚ
  ty : ℚ
  zoom : ℚ
  shear : ℚ
  flip : Bool

/-- Uniform draw from `[lo, hi]`, driven by a random `r` in `[0, 1]`. -/
def unifDraw (lo hi r : ℚ) : ℚ := lo + r * (hi - lo)

/-- Modelled from the spec: the per-sample random transform of the
`ImageDataGenerator` configured at lines 80-86 — rotation in ±15°,
horizontal/vertical shift in ±4% of the image extent, zoom factor within
±5% of 1, shear within ±5%, and a fair horizontal flip; `r1..r5` are
independent uniform randoms in `[0, 1]`. -/
def drawTransform (r1 r2 r3 r4 r5 : ℚ) (rflip : Bool) : AugParams :=
  { theta := unifDraw (-15) 15 r1
    tx := unifDraw (-(4/100)) (4/100) r2
    ty := unifDraw (-(4/100)) (4/100) r3
    zoom := unifDraw (1 - 5/100) (1 + 5/100) r4
    shear := unifDraw (-(5/100)) (5/100) r5
    flip := rflip }

/-- Clamp an integer coordinate into `[0, n)` (nearest valid index). -/
def clampIdx (n : ℕ) (hn : 0 < n) (z : ℤ) : Fin n :=
  if h1 : z < 0 then ⟨0, hn⟩
  else if h2 : z < (n : ℤ) then ⟨z.toNat, by omega⟩
  else ⟨n - 1, by omega⟩

/-- Modelled from the spec: `fill_mode='nearest'` — a source coordinate
outside the image reads the nearest border pixel, so every coordinate
yields a value. -/
def nearestFill (img : ImageQ) (zi zj : ℤ) : ℚ :=
  img (clampIdx 28 (by omega) zi, clampIdx 28 (by omega) zj)

/-- Modelled from the spec: apply a drawn transform to one (image, label)
pair.  `geom p` is the inverse coordinate map of the affine transform with
parameters `p` (rotation/shift/zoom/shear/flip); each output pixel reads
the nearest source pixel, and the label rides along unchanged. -/
def augmentPair (geom : AugParams → Fin 28 × Fin 28 → ℤ × ℤ) (p : AugParams)
    (img : ImageQ) (lab : Fin 10) : ImageQ × Fin 10 :=
  (fun q => nearestFill img (geom p q).1 (geom p q).2, lab)

/-! ### Prediction report (`main`, lines 152-159) -/

/-- Maximum of `x :: l`. -/
def maxFrom {α : Type} [LinearOrder α] (x : α) : List α → α
  | [] => x
  | y :: ys => max x (maxFrom y ys)

/-- First index of the maximum of `x :: l` (the head wins ties). -/
def argmaxFrom {α : Type} [LinearOrder α] (x : α) : List α → ℕ
  | [] => 0
  | y :: ys => if x < maxFrom y ys then argmaxFrom y ys + 1 else 0

/-- Modelled from the spec: `np.argmax` — the index of the maximum entry,
the lowest such index on ties (stable argmax); 0 on the empty list. -/
def argmaxIdx {α : Type} [LinearOrder α] : List α → ℕ
  | [] => 0
  | x :: xs => argmaxFrom x xs

/-- Lines 154 and 157-158: the predicted class id of each sample in the
batch is the stable argmax of its row of softmax scores. -/
def predictIds (preds : List (List ℚ)) : List ℕ := preds.map argmaxIdx

/-! ### Data loading (`load_data`, lines 19-25) -/

/-- Lines 21-22: `astype('float32') / 255` — a raw MNIST byte (0..255,
modelled as `Fin 256`) becomes a rational in `[0, 1]`. -/
def normPixel (b : Fin 256) : ℚ := (b.val : ℚ) / 255

/-- A loaded sample: every pixel of the raw byte grid normalized. -/
def loadImage (raw : Fin 28 × Fin 28 → Fin 256) : ImageQ :=
  fun q => normPixel (raw q)

/-- Modelled from the spec: `to_categorical` (line 23-24) — one-hot
encoding of class id `y` into a width-`k` probability vector. -/
def toCategorical (k y : ℕ) : List ℚ :=
  (List.range k).map (fun i => if i = y then 1 else 0)

/-! ### Fit precondition (spec §7) -/

/-- Modelled from the spec: `model.fit` (line 89) fails fast on an empty
dataset split, before any epoch begins; with non-empty splits it runs the
full controller loop. -/
def fitModel (nTrain nVal : ℕ) (v : ℕ → ℚ) : Except String Ctrl :=
  if nTrain = 0 ∨ nVal = 0 then Except.error "empty dataset split"
  else Except.ok (runTrain v)

/-- Whether a fit attempt ran (returned a final controller state). -/
def fitRan : Except String Ctrl → Bool
  | Except.ok _ => true
  | Except.error _ => false

/-- Number of epochs a fit attempt executed (0 when it failed fast). -/
def epochsRun : Except String Ctrl → ℕ
  | Except.ok s => s.epoch
  | Except.error _ => 0

/-! ### Sampled-prediction indices (`main`, line 152) -/

/-- Modelled from the spec: `np.random.choice(n, k)` draws WITH
replacement (the default), so exactly the length-`k` index lists over
`[0, n)` are possible outcomes. -/
def possibleChoice (n k : ℕ) (l : List ℕ) : Prop :=
  l.length = k ∧ ∀ i ∈ l, i < n

/-- Lines 156-159: the printed report, one (true label, predicted label,
index) tuple per drawn index. -/
def sampledReport (trueLab predLab : ℕ → ℕ) (l : List ℕ) : List (ℕ × ℕ × ℕ) :=
  l.map (fun i => (trueLab i, predLab i, i))

lemma bestOf_le (v : ℕ → ℚ) : ∀ k j, j ≤ k → bestOf v k ≤ v j := by
  intro k
  induction k with
  | zero => intro j hj; simp [Nat.le_zero.mp hj, bestOf]
  | succ k ih =>
    intro j hj
    rcases Nat.lt_or_ge j (k + 1) with h | h
    · exact le_trans (min_le_left _ _) (ih j (Nat.lt_succ_iff.mp h))
    · have : j = k + 1 := le_antisymm hj h
      simp [this, bestOf]

lemma bestOf_attained (v : ℕ → ℚ) : ∀ k, ∃ j, j ≤ k ∧ bestOf v k = v j := by
  intro k
  induction k with
  | zero => exact ⟨0, le_refl 0, rfl⟩
  | succ k ih =>
    obtain ⟨j, hj, hb⟩ := ih
    rcases le_or_lt (bestOf v k) (v (k + 1)) with h | h
    · refine ⟨j, le_trans hj (Nat.le_succ k), ?_⟩
      show min (bestOf v k) (v (k + 1)) = v j
      rw [min_eq_left h, hb]
    · refine ⟨k + 1, le_refl _, ?_⟩
      show min (bestOf v k) (v (k + 1)) = v (k + 1)
      rw [min_eq_right (le_of_lt h)]

lemma improving_iff (v : ℕ → ℚ) (k : ℕ) :
    improving v (k + 1) ↔ v (k + 1) < bestOf v k := by
  constructor
  · intro h
    obtain ⟨j, hj, hb⟩ := bestOf_attained v k
    rw [hb]
    exact h j (Nat.lt_succ_of_le hj)
  · intro h j hj
    exact lt_of_lt_of_le h (bestOf_le v k j (Nat.lt_succ_iff.mp hj))

lemma firstMin_le (v : ℕ → ℚ) : ∀ k, firstMin v k ≤ k := by
  intro k
  induction k with
  | zero => exact le_refl 0
  | succ k ih =>
    by_cases h : v (k + 1) < bestOf v k
    · simp [firstMin, h]
    · simp only [firstMin, h, if_false]
      exact le_trans ih (Nat.le_succ k)

lemma v_firstMin (v : ℕ → ℚ) : ∀ k, v (firstMin v k) = bestOf v k := by
  intro k
  induction k with
  | zero => rfl
  | succ k ih =>
    by_cases h : v (k + 1) < bestOf v k
    · simp [firstMin, bestOf, h, min_eq_right (le_of_lt h)]
    · simp [firstMin, bestOf, h, min_eq_left (not_lt.mp h), ih]

lemma firstMin_first (v : ℕ → ℚ) :
    ∀ k j, j < firstMin v k → bestOf v k < v j := by
  intro k
  induction k with
  | zero => intro j hj; exact absurd hj (Nat.not_lt_zero j)
  | succ k ih =>
    intro j hj
    by_cases h : v (k + 1) < bestOf v k
    · simp only [firstMin, h, if_true] at hj
      have hb : bestOf v (k + 1) = v (k + 1) := by
        simp [bestOf, min_eq_right (le_of_lt h)]
      rw [hb]
      exact lt_of_lt_of_le h (bestOf_le v k j (Nat.lt_succ_iff.mp hj))
    · simp only [firstMin, h, if_false] at hj
      have hb : bestOf v (k + 1) = bestOf v k := by
        simp [bestOf, min_eq_left (not_lt.mp h)]
      rw [hb]
      exact ih j hj

lemma trackerOK_init (v : ℕ → ℚ) : TrackerOK v ctrlInit := by
  left
  exact ⟨rfl, rfl, rfl, rfl, rfl, rfl⟩

lemma stepEpoch_epoch (v : ℕ → ℚ) (s : Ctrl) :
    (stepEpoch v s).epoch = s.epoch + 1 := rfl

lemma runFor_succ (v : ℕ → ℚ) (n : ℕ) (s : Ctrl) :
    runFor v (n + 1) s = if s.stopped then s else runFor v n (stepEpoch v s) := rfl

lemma trackerOK_step (v : ℕ → ℚ) (s : Ctrl) (h : TrackerOK v s)
    (hs : s.stopped = false) : TrackerOK v (stepEpoch v s) := by
  rcases h with ⟨h0, hes, hcp, hart, hwait, -⟩ | ⟨k, hep, hes, hcp, hart, halive, -⟩
  · right
    refine ⟨0, ?_, ?_, ?_, ?_, ?_, ?_⟩
    · simp [stepEpoch, h0]
    · simp [stepEpoch, h0, hes, bestOf]
    · simp [stepEpoch, h0, hcp, bestOf]
    · simp [stepEpoch, h0, hcp, firstMin]
    · intro _
      have hw : (stepEpoch v s).wait = 0 := by simp [stepEpoch, hes]
      refine ⟨0, le_refl 0, fun j hj => absurd hj (Nat.not_lt_zero j), ?_, ?_⟩ <;>
        simp [hw]
    · intro hcontra
      have : (stepEpoch v s).stopped = false := by simp [stepEpoch, h0, hes, hwait]
      rw [this] at hcontra
      exact absurd hcontra (by simp)
  · right
    refine ⟨k + 1, ?_⟩
    by_cases himp : v (k + 1) < bestOf v k
    · -- strict improvement at epoch k+1: both callbacks update, wait resets
      have hb : bestOf v (k + 1) = v (k + 1) := by
        show min (bestOf v k) (v (k + 1)) = v (k + 1)
        exact min_eq_right (le_of_lt himp)
      have hf : firstMin v (k + 1) = k + 1 := by simp [firstMin, himp]
      have hw : (stepEpoch v s).wait = 0 := by simp [stepEpoch, hep, hes, himp]
      have hstop : (stepEpoch v s).stopped = false := by
        simp [stepEpoch, hep, hes, himp]
      refine ⟨?_, ?_, ?_, ?_, ?_, ?_⟩
      · simp [stepEpoch, hep]
      · rw [hb]; simp [stepEpoch, hep, hes, himp]
      · rw [hb]; simp [stepEpoch, hep, hcp, himp]
      · rw [hf]; simp [stepEpoch, hep, hcp, himp]
      · intro _
        refine ⟨k + 1, le_refl _, (improving_iff v k).mpr himp, ?_, ?_⟩ <;>
          simp [hw]
      · intro hcontra
        rw [hstop] at hcontra
        exact absurd hcontra (by simp)
    · -- no improvement: bests unchanged, wait increments, maybe stop
      obtain ⟨e, hek, hei, hesum, hwlt⟩ := halive hs
      have hb : bestOf v (k + 1) = bestOf v k := by
        show min (bestOf v k) (v (k + 1)) = bestOf v k
        exact min_eq_left (not_lt.mp himp)
      have hf : firstMin v (k + 1) = firstMin v k := by
        simp [firstMin, himp]
      have hw : (stepEpoch v s).wait = s.wait + 1 := by
        simp [stepEpoch, hep, hes, himp]
      have hstop : (stepEpoch v s).stopped = decide (10 ≤ s.wait + 1) := by
        simp [stepEpoch, hep, hes, himp]
      refine ⟨?_, ?_, ?_, ?_, ?_, ?_⟩
      · simp [stepEpoch, hep]
      · rw [hb]; simp [stepEpoch, hep, hes, himp]
      · rw [hb]; simp [stepEpoch, hep, hcp, himp]
      · rw [hf, ← hart]; simp [stepEpoch, hep, hcp, himp]
      · intro halive2
        rw [hstop] at halive2
        simp only [decide_eq_false_iff_not, not_le] at halive2
        exact ⟨e, le_trans hek (Nat.le_succ k), hei, by omega, by omega⟩
      · intro hstop2
        rw [hstop] at hstop2
        simp only [decide_eq_true_eq] at hstop2
        exact ⟨e, le_trans hek (Nat.le_succ k), hei, by omega⟩

lemma trackerOK_runFor (v : ℕ → ℚ) :
    ∀ n s, TrackerOK v s → TrackerOK v (runFor v n s) := by
  intro n
  induction n with
  | zero => intro s h; exact h
  | succ n ih =>
    intro s h
    rw [runFor_succ]
    cases hb : s.stopped
    · rw [if_neg (by simp [hb])]
      exact ih (stepEpoch v s) (trackerOK_step v s h hb)
    · rw [if_pos rfl]
      exact h

lemma trackerOK_ctrlIter (v : ℕ → ℚ) (k : ℕ) : TrackerOK v (ctrlIter v k) :=
  trackerOK_runFor v k ctrlInit (trackerOK_init v)

lemma runFor_epoch_le (v : ℕ → ℚ) :
    ∀ n s, (runFor v n s).epoch ≤ s.epoch + n := by
  intro n
  induction n with
  | zero => intro s; simp [runFor]
  | succ n ih =>
    intro s
    rw [runFor_succ]
    cases hb : s.stopped
    · rw [if_neg (by simp [hb])]
      have := ih (stepEpoch v s)
      rw [stepEpoch_epoch] at this
      omega
    · rw [if_pos rfl]
      omega

lemma runFor_epoch_of_alive (v : ℕ → ℚ) :
    ∀ n s, (runFor v n s).stopped = false → (runFor v n s).epoch = s.epoch + n := by
  intro n
  induction n with
  | zero => intro s _; simp [runFor]
  | succ n ih =>
    intro s halive
    rw [runFor_succ] at halive ⊢
    cases hb : s.stopped
    · rw [if_neg (by simp [hb])] at halive ⊢
      have := ih (stepEpoch v s) halive
      rw [stepEpoch_epoch] at this
      omega
    · simp [hb] at halive

lemma runFor_epoch_ge (v : ℕ → ℚ) :
    ∀ n s, s.epoch ≤ (runFor v n s).epoch := by
  intro n
  induction n with
  | zero => intro s; simp [runFor]
  | succ n ih =>
    intro s
    rw [runFor_succ]
    cases hb : s.stopped
    · rw [if_neg (by simp [hb])]
      have := ih (stepEpoch v s)
      rw [stepEpoch_epoch] at this
      omega
    · rw [if_pos rfl]

lemma runTrain_epoch_pos (v : ℕ → ℚ) : 1 ≤ (runTrain v).epoch := by
  have h : runTrain v = runFor v 199 (stepEpoch v ctrlInit) := by
    show runFor v (199 + 1) ctrlInit = _
    rw [runFor_succ, if_neg (by simp [ctrlInit])]
  rw [h]
  have h2 := runFor_epoch_ge v 199 (stepEpoch v ctrlInit)
  rw [stepEpoch_epoch] at h2
  have h3 : ctrlInit.epoch = 0 := rfl
  omega

lemma runTrain_epoch_le (v : ℕ → ℚ) : (runTrain v).epoch ≤ 200 := by
  have h := runFor_epoch_le v 200 ctrlInit
  have h3 : ctrlInit.epoch = 0 := rfl
  show (runFor v 200 ctrlInit).epoch ≤ 200
  omega



/-- C1: after the training controller stops, the checkpoint last persisted
to the fixed artifact name holds the parameter snapshot of the epoch with
the best validation loss observed during the run (the first such epoch),
and `main` reloads exactly that checkpoint — `loadedWeights`, the
parameters used by the final evaluation and prediction — rather than the
live post-training parameters. -/
theorem mainReloadsBestCheckpoint (v : ℕ → ℚ) (P : Type) (paramsOf : ℕ → P) :
    ∃ e, (runTrain v).artifact = some e
      ∧ loadedWeights v paramsOf = some (paramsOf e)
      ∧ e < (runTrain v).epoch
      ∧ (∀ j, j < (runTrain v).epoch → v e ≤ v j)
      ∧ (∀ j, j < e → v e < v j) := by
  have h : TrackerOK v (runTrain v) := trackerOK_ctrlIter v 200
  have hpos := runTrain_epoch_pos v
  rcases h with ⟨h0, -⟩ | ⟨k, hep, -, -, hart, -, -⟩
  · omega
  · refine ⟨firstMin v k, hart, ?_, ?_, ?_, ?_⟩
    · rw [loadedWeights, hart]
      rfl
    · have := firstMin_le v k
      omega
    · intro j hj
      rw [v_firstMin v k]
      exact bestOf_le v k j (by omega)
    · intro j hj
      rw [v_firstMin v k]
      exact firstMin_first v k j hj

/-- Witness for C1 at a concrete loss sequence and parameter map. -/
theorem mainReloadsBestCheckpoint_witness :
    ∃ e, (runTrain (fun n => (n : ℚ))).artifact = some e
      ∧ loadedWeights (fun n => (n : ℚ)) id = some (id e)
      ∧ e < (runTrain (fun n => (n : ℚ))).epoch
      ∧ (∀ j, j < (runTrain (fun n => (n : ℚ))).epoch → (e : ℚ) ≤ (j : ℚ))
      ∧ (∀ j, j < e → (e : ℚ) < (j : ℚ)) :=
  mainReloadsBestCheckpoint (fun n => (n : ℚ)) ℕ id

/-- C2: the controller halts no more than 10 epochs after the last epoch
whose validation loss strictly improved on the best seen so far (some
improving epoch `e` satisfies `epoch ≤ e + 11`, i.e. the final executed
epoch index is at most `e + 10`; the last improving epoch is at least
`e`), and the total number of executed epochs never exceeds the hard cap
of 200 passed by `main`. -/
theorem haltsWithinPatienceAndCap (v : ℕ → ℚ) :
    (runTrain v).epoch ≤ 200 ∧
    ∃ e, e < (runTrain v).epoch ∧ improving v e ∧ (runTrain v).epoch ≤ e + 11 := by
  refine ⟨runTrain_epoch_le v, ?_⟩
  have h : TrackerOK v (runTrain v) := trackerOK_ctrlIter v 200
  have hpos := runTrain_epoch_pos v
  rcases h with ⟨h0, -⟩ | ⟨k, hep, -, -, -, halive, hstop⟩
  · omega
  · cases hb : (runTrain v).stopped
    · obtain ⟨e, hek, hei, hsum, hw⟩ := halive hb
      exact ⟨e, by omega, hei, by omega⟩
    · obtain ⟨e, hek, hei, hle⟩ := hstop hb
      exact ⟨e, by omega, hei, by omega⟩

/-- Witness for C2 at a concrete loss sequence. -/
theorem haltsWithinPatienceAndCap_witness :
    (runTrain (fun _ => (1 : ℚ))).epoch ≤ 200 ∧
    ∃ e, e < (runTrain (fun _ => (1 : ℚ))).epoch ∧ improving (fun _ => (1 : ℚ)) e ∧
      (runTrain (fun _ => (1 : ℚ))).epoch ≤ e + 11 :=
  haltsWithinPatienceAndCap (fun _ => (1 : ℚ))

/-- C3: in every epoch the checkpoint file is written if and only if that
epoch's validation loss is strictly below the tracker's current best (or
no best has been recorded yet); each write replaces the single artifact
with the current epoch's snapshot, a non-write leaves artifact and best
untouched, and after any number of epochs the tracker's recorded best is
the minimum validation loss over all epochs run so far. -/
theorem checkpointWriteIffImprovement (v : ℕ → ℚ) :
    (∀ s : Ctrl,
        ((stepEpoch v s).wrote = true ↔
          s.cpBest = none ∨ ∃ b, s.cpBest = some b ∧ v s.epoch < b)
      ∧ ((stepEpoch v s).wrote = true → (stepEpoch v s).artifact = some s.epoch)
      ∧ ((stepEpoch v s).wrote = false →
          (stepEpoch v s).artifact = s.artifact ∧ (stepEpoch v s).cpBest = s.cpBest))
    ∧ (∀ k, 1 ≤ (ctrlIter v k).epoch →
        (ctrlIter v k).cpBest = some (bestOf v ((ctrlIter v k).epoch - 1))) := by
  constructor
  · intro s
    cases hcp : s.cpBest with
    | none =>
      refine ⟨?_, ?_, ?_⟩
      · simp [stepEpoch, hcp]
      · intro _
        simp [stepEpoch, hcp]
      · intro hfalse
        have : (stepEpoch v s).wrote = true := by simp [stepEpoch, hcp]
        rw [this] at hfalse
        exact absurd hfalse (by simp)
    | some b =>
      by_cases hlt : v s.epoch < b
      · refine ⟨?_, ?_, ?_⟩
        · simp only [stepEpoch, hcp]
          simp [hlt, hcp]
        · intro _
          simp [stepEpoch, hcp, hlt]
        · intro hfalse
          have : (stepEpoch v s).wrote = true := by simp [stepEpoch, hcp, hlt]
          rw [this] at hfalse
          exact absurd hfalse (by simp)
      · refine ⟨?_, ?_, ?_⟩
        · simp only [stepEpoch, hcp]
          simp [hlt]
        · intro htrue
          have : (stepEpoch v s).wrote = false := by simp [stepEpoch, hcp, hlt]
          rw [this] at htrue
          exact absurd htrue (by simp)
        · intro _
          constructor <;> simp [stepEpoch, hcp, hlt]
  · intro k hk
    have h := trackerOK_ctrlIter v k
    rcases h with ⟨h0, -⟩ | ⟨k', hep, -, hcp, -, -, -⟩
    · omega
    · rw [hcp, hep]
      simp

/-- Witness for C3: the first epoch of a run always writes (no best yet),
and after one epoch the tracker's best is that epoch's loss. -/
theorem checkpointWriteIffImprovement_witness :
    (((stepEpoch (fun n => (n : ℚ)) ctrlInit).wrote = true ↔
        ctrlInit.cpBest = none ∨
          ∃ b, ctrlInit.cpBest = some b ∧ ((ctrlInit.epoch : ℚ)) < b)
      ∧ ((stepEpoch (fun n => (n : ℚ)) ctrlInit).wrote = true →
          (stepEpoch (fun n => (n : ℚ)) ctrlInit).artifact = some ctrlInit.epoch)
      ∧ ((stepEpoch (fun n => (n : ℚ)) ctrlInit).wrote = false →
          (stepEpoch (fun n => (n : ℚ)) ctrlInit).artifact = ctrlInit.artifact ∧
          (stepEpoch (fun n => (n : ℚ)) ctrlInit).cpBest = ctrlInit.cpBest))
    ∧ (ctrlIter (fun n => (n : ℚ)) 1).cpBest =
        some (bestOf (fun n => (n : ℚ)) ((ctrlIter (fun n => (n : ℚ)) 1).epoch - 1)) :=
  ⟨(checkpointWriteIffImprovement (fun n => (n : ℚ))).1 ctrlInit,
    (checkpointWriteIffImprovement (fun n => (n : ℚ))).2 1 (by decide)⟩

lemma softmax10_prob (z : Fin 10 → ℚ) :
    (∀ i, 0 ≤ softmax10 z i) ∧ (∑ i, softmax10 z i) = 1 := by
  have hS : 0 < ∑ j, Real.exp ((z j : ℝ)) :=
    Finset.sum_pos (fun j _ => Real.exp_pos _) Finset.univ_nonempty
  constructor
  · intro i
    exact div_nonneg (Real.exp_pos _).le hS.le
  · simp only [softmax10]
    rw [← Finset.sum_div, div_self (ne_of_gt hS)]

/-- C4: for every input (and in either mode, with any dropout masks), the
forward pass ends in the width-10 softmax layer and returns a probability
vector: all 10 entries are non-negative and they sum to exactly 1 (the
model is over exact reals, so the tolerance is 0). -/
theorem forwardProbabilityVector (net : NetParams) (training : Bool)
    (m : DropMasks) (x : Fin 28 × Fin 28 → ℚ) :
    (∀ i, 0 ≤ forward net training m x i) ∧
    (∑ i, forward net training m x i) = 1 := by
  have h2 : ∃ z, forward net training m x = softmax10 z := ⟨_, rfl⟩
  obtain ⟨z, hz⟩ := h2
  rw [hz]
  exact softmax10_prob z

lemma sum_keepW (rate : ℚ) : (∑ b : Bool, keepW rate b) = 1 := by
  simp [keepW]

lemma sum_maskP (rate : ℚ) (n : ℕ) :
    (∑ m : Fin n → Bool, maskP rate m) = 1 := by
  unfold maskP
  rw [← Fintype.prod_sum (fun _ : Fin n => fun b : Bool => keepW rate b)]
  rw [Finset.prod_congr rfl (fun i _ => sum_keepW rate)]
  simp

lemma pairP_diag (rate : ℚ) (n : ℕ) :
    pairP rate n (fun m m' => m = m') = ((1 - rate) ^ 2 + rate ^ 2) ^ n := by
  unfold pairP
  have hinner : ∀ m : Fin n → Bool,
      (∑ m' : Fin n → Bool, if m = m' then maskP rate m * maskP rate m' else 0)
        = maskP rate m * maskP rate m := by
    intro m
    rw [Finset.sum_ite_eq]
    simp
  rw [Finset.sum_congr rfl (fun m _ => hinner m)]
  have hsplit : ∀ m : Fin n → Bool, maskP rate m * maskP rate m
      = ∏ i, (keepW rate (m i) * keepW rate (m i)) := by
    intro m
    rw [maskP, ← Finset.prod_mul_distrib]
  rw [Finset.sum_congr rfl (fun m _ => hsplit m)]
  rw [← Fintype.prod_sum (fun _ : Fin n => fun b : Bool => keepW rate b * keepW rate b)]
  have hbool : (∑ b : Bool, keepW rate b * keepW rate b)
      = (1 - rate) ^ 2 + rate ^ 2 := by
    simp [keepW]
    ring
  rw [Finset.prod_congr rfl (fun i _ => hbool)]
  simp

lemma pairP_add_compl (rate : ℚ) (n : ℕ)
    (E : (Fin n → Bool) → (Fin n → Bool) → Prop) [∀ m m', Decidable (E m m')] :
    pairP rate n E + pairP rate n (fun m m' => ¬ E m m') = 1 := by
  unfold pairP
  rw [← Finset.sum_add_distrib]
  have hm : ∀ m : Fin n → Bool,
      ((∑ m' : Fin n → Bool, if E m m' then maskP rate m * maskP rate m' else 0)
        + ∑ m' : Fin n → Bool, if ¬ E m m' then maskP rate m * maskP rate m' else 0)
      = maskP rate m := by
    intro m
    rw [← Finset.sum_add_distrib]
    have hpt : ∀ m' : Fin n → Bool,
        ((if E m m' then maskP rate m * maskP rate m' else 0)
          + if ¬ E m m' then maskP rate m * maskP rate m' else 0)
        = maskP rate m * maskP rate m' := by
      intro m'
      by_cases h : E m m' <;> simp [h]
    rw [Finset.sum_congr rfl (fun m' _ => hpt m')]
    rw [← Finset.mul_sum, sum_maskP, mul_one]
  rw [Finset.sum_congr rfl (fun m _ => hm m), sum_maskP]

lemma pairP_congr (rate : ℚ) (n : ℕ)
    (E F : (Fin n → Bool) → (Fin n → Bool) → Prop)
    [∀ m m', Decidable (E m m')] [∀ m m', Decidable (F m m')]
    (h : ∀ m m', E m m' ↔ F m m') : pairP rate n E = pairP rate n F := by
  unfold pairP
  refine Finset.sum_congr rfl fun m _ => Finset.sum_congr rfl fun m' _ => ?_
  exact if_congr (h m m') rfl rfl

lemma dropout_train_eq_iff (rate : ℚ) (hr : 1 - rate ≠ 0) {n : ℕ}
    (x : Fin n → ℚ) (hx : ∀ i, x i ≠ 0) (m m' : Fin n → Bool) :
    dropoutF true rate m x = dropoutF true rate m' x ↔ m = m' := by
  constructor
  · intro h
    funext i
    have hi := congrFun h i
    simp only [dropoutF] at hi
    cases hmi : m i <;> cases hmi' : m' i
    · rfl
    · exfalso
      rw [hmi, hmi'] at hi
      exact div_ne_zero (hx i) hr hi.symm
    · exfalso
      rw [hmi, hmi'] at hi
      exact div_ne_zero (hx i) hr hi
    · rfl
  · intro h
    rw [h]

/-- C5: with fixed parameters, two inference-mode forward passes agree for
any dropout masks (the four dropout layers are identities at inference),
while in training mode two independent mask draws for a dropout layer of
at least 70 units over a nowhere-zero activation vector give identical
layer outputs with probability below 1/1000000 — equivalently, differing
intermediate values with probability above 1 - 1/1000000.  (The smallest
dropout layer of the network, `m4`, has 128 units.) -/
theorem inferenceDeterministicTrainingRandom :
    (∀ (net : NetParams) (m m' : DropMasks) (x : Fin 28 × Fin 28 → ℚ),
      forward net false m x = forward net false m' x)
    ∧ (∀ (n : ℕ) (x : Fin n → ℚ), 70 ≤ n → (∀ i, x i ≠ 0) →
        pairP (1/10) n
            (fun m m' => dropoutF true (1/10) m x = dropoutF true (1/10) m' x)
          < 1/1000000
        ∧ 1 - 1/1000000 <
          pairP (1/10) n
            (fun m m' => ¬ dropoutF true (1/10) m x = dropoutF true (1/10) m' x)) := by
  constructor
  · intro net m m' x
    rfl
  · intro n x hn hx
    have hr : 1 - (1/10 : ℚ) ≠ 0 := by norm_num
    have hcong : pairP (1/10) n
        (fun m m' => dropoutF true (1/10) m x = dropoutF true (1/10) m' x)
        = pairP (1/10) n (fun m m' => m = m') :=
      pairP_congr _ _ _ _ (fun m m' => dropout_train_eq_iff (1/10) hr x hx m m')
    have hdiag : pairP (1/10) n (fun m m' : Fin n → Bool => m = m')
        = ((41 : ℚ)/50) ^ n := by
      rw [pairP_diag]
      norm_num
    have hmono : ((41 : ℚ)/50) ^ n ≤ ((41 : ℚ)/50) ^ 70 :=
      pow_le_pow_of_le_one (by norm_num) (by norm_num) hn
    have hsmall : ((41 : ℚ)/50) ^ 70 < 1/1000000 := by norm_num
    have hlt : pairP (1/10) n
        (fun m m' => dropoutF true (1/10) m x = dropoutF true (1/10) m' x)
        < 1/1000000 := by
      rw [hcong, hdiag]
      exact lt_of_le_of_lt hmono hsmall
    refine ⟨hlt, ?_⟩
    have hcompl := pairP_add_compl (1/10) n
      (fun m m' => dropoutF true (1/10) m x = dropoutF true (1/10) m' x)
    linarith

/-- Witness for C5 at the smallest layer size covered and an all-ones
activation vector. -/
theorem inferenceDeterministicTrainingRandom_witness :
    pairP (1/10) 70
        (fun m m' : Fin 70 → Bool =>
          dropoutF true (1/10) m (fun _ => (1 : ℚ)) =
            dropoutF true (1/10) m' (fun _ => (1 : ℚ)))
      < 1/1000000
    ∧ 1 - 1/1000000 <
      pairP (1/10) 70
        (fun m m' : Fin 70 → Bool =>
          ¬ dropoutF true (1/10) m (fun _ => (1 : ℚ)) =
            dropoutF true (1/10) m' (fun _ => (1 : ℚ))) :=
  inferenceDeterministicTrainingRandom.2 70 (fun _ => (1 : ℚ))
    (by norm_num) (fun i => by norm_num)

lemma unifDraw_bounds (lo hi r : ℚ) (hle : lo ≤ hi) (h0 : 0 ≤ r)
    (h1 : r ≤ 1) : lo ≤ unifDraw lo hi r ∧ unifDraw lo hi r ≤ hi := by
  unfold unifDraw
  constructor <;> nlinarith

/-- C6: every transform drawn by the augmentation pipeline stays inside
the configured bounds — rotation in [-15°, 15°], horizontal and vertical
shift within ±4%, zoom within ±5% of 1, shear within ±5% — and, whatever
the induced coordinate geometry, every output pixel is filled from some
(nearest) source pixel and the paired label is returned unchanged. -/
theorem augmentBoundsAndLabel (r1 r2 r3 r4 r5 : ℚ) (rflip : Bool)
    (h1a : 0 ≤ r1) (h1b : r1 ≤ 1) (h2a : 0 ≤ r2) (h2b : r2 ≤ 1)
    (h3a : 0 ≤ r3) (h3b : r3 ≤ 1) (h4a : 0 ≤ r4) (h4b : r4 ≤ 1)
    (h5a : 0 ≤ r5) (h5b : r5 ≤ 1) :
    (-15 ≤ (drawTransform r1 r2 r3 r4 r5 rflip).theta
      ∧ (drawTransform r1 r2 r3 r4 r5 rflip).theta ≤ 15)
    ∧ |(drawTransform r1 r2 r3 r4 r5 rflip).tx| ≤ 4/100
    ∧ |(drawTransform r1 r2 r3 r4 r5 rflip).ty| ≤ 4/100
    ∧ |(drawTransform r1 r2 r3 r4 r5 rflip).zoom - 1| ≤ 5/100
    ∧ |(drawTransform r1 r2 r3 r4 r5 rflip).shear| ≤ 5/100
    ∧ (∀ geom img lab,
        (augmentPair geom (drawTransform r1 r2 r3 r4 r5 rflip) img lab).2 = lab)
    ∧ (∀ geom img lab q, ∃ src,
        (augmentPair geom (drawTransform r1 r2 r3 r4 r5 rflip) img lab).1 q
          = img src) := by
  have hth := unifDraw_bounds (-15) 15 r1 (by norm_num) h1a h1b
  have htx := unifDraw_bounds (-(4/100)) (4/100) r2 (by norm_num) h2a h2b
  have hty := unifDraw_bounds (-(4/100)) (4/100) r3 (by norm_num) h3a h3b
  have hz := unifDraw_bounds (1 - 5/100) (1 + 5/100) r4 (by norm_num) h4a h4b
  have hsh := unifDraw_bounds (-(5/100)) (5/100) r5 (by norm_num) h5a h5b
  refine ⟨⟨hth.1, hth.2⟩, ?_, ?_, ?_, ?_, ?_, ?_⟩
  · exact abs_le.mpr ⟨by simpa [drawTransform] using htx.1,
      by simpa [drawTransform] using htx.2⟩
  · exact abs_le.mpr ⟨by simpa [drawTransform] using hty.1,
      by simpa [drawTransform] using hty.2⟩
  · refine abs_le.mpr ⟨?_, ?_⟩
    · have := hz.1
      simp only [drawTransform]
      linarith
    · have := hz.2
      simp only [drawTransform]
      linarith
  · exact abs_le.mpr ⟨by simpa [drawTransform] using hsh.1,
      by simpa [drawTransform] using hsh.2⟩
  · intro geom img lab
    rfl
  · intro geom img lab q
    exact ⟨_, rfl⟩

/-- Witness for C6 at the midpoint randoms. -/
theorem augmentBoundsAndLabel_witness :
    (-15 ≤ (drawTransform (1/2) (1/2) (1/2) (1/2) (1/2) true).theta
      ∧ (drawTransform (1/2) (1/2) (1/2) (1/2) (1/2) true).theta ≤ 15)
    ∧ |(drawTransform (1/2) (1/2) (1/2) (1/2) (1/2) true).tx| ≤ 4/100
    ∧ |(drawTransform (1/2) (1/2) (1/2) (1/2) (1/2) true).ty| ≤ 4/100
    ∧ |(drawTransform (1/2) (1/2) (1/2) (1/2) (1/2) true).zoom - 1| ≤ 5/100
    ∧ |(drawTransform (1/2) (1/2) (1/2) (1/2) (1/2) true).shear| ≤ 5/100
    ∧ (∀ geom img lab,
        (augmentPair geom (drawTransform (1/2) (1/2) (1/2) (1/2) (1/2) true)
          img lab).2 = lab)
    ∧ (∀ geom img lab q, ∃ src,
        (augmentPair geom (drawTransform (1/2) (1/2) (1/2) (1/2) (1/2) true)
          img lab).1 q = img src) :=
  augmentBoundsAndLabel (1/2) (1/2) (1/2) (1/2) (1/2) true
    (by norm_num) (by norm_num) (by norm_num) (by norm_num) (by norm_num)
    (by norm_num) (by norm_num) (by norm_num) (by norm_num) (by norm_num)

lemma argmaxFrom_le_length (x : ℚ) (l : List ℚ) :
    argmaxFrom x l ≤ l.length := by
  induction l generalizing x with
  | nil => exact Nat.le_refl 0
  | cons y ys ih =>
    by_cases h : x < maxFrom y ys
    · simp only [argmaxFrom, h, if_true, List.length_cons]
      exact Nat.succ_le_succ (ih y)
    · simp only [argmaxFrom, h, if_false]
      exact Nat.zero_le _

lemma argmaxFrom_getD (x : ℚ) (l : List ℚ) :
    (x :: l).getD (argmaxFrom x l) 0 = maxFrom x l := by
  induction l generalizing x with
  | nil => rfl
  | cons y ys ih =>
    by_cases h : x < maxFrom y ys
    · have ha : argmaxFrom x (y :: ys) = argmaxFrom y ys + 1 := by
        simp [argmaxFrom, h]
      rw [ha]
      show (y :: ys).getD (argmaxFrom y ys) 0 = maxFrom x (y :: ys)
      rw [ih y]
      show maxFrom y ys = max x (maxFrom y ys)
      exact (max_eq_right (le_of_lt h)).symm
    · have ha : argmaxFrom x (y :: ys) = 0 := by simp [argmaxFrom, h]
      rw [ha]
      show x = max x (maxFrom y ys)
      exact (max_eq_left (not_lt.mp h)).symm

lemma getD_le_maxFrom (x : ℚ) (l : List ℚ) :
    ∀ j, j < (x :: l).length → (x :: l).getD j 0 ≤ maxFrom x l := by
  induction l generalizing x with
  | nil =>
    intro j hj
    have hj0 : j = 0 := by
      simp only [List.length_cons, List.length_nil] at hj
      omega
    subst hj0
    exact le_refl x
  | cons y ys ih =>
    intro j hj
    cases j with
    | zero => exact le_max_left _ _
    | succ jj =>
      have hlt : jj < (y :: ys).length := by
        simp only [List.length_cons] at hj ⊢
        omega
      show (y :: ys).getD jj 0 ≤ max x (maxFrom y ys)
      exact le_trans (ih y jj hlt) (le_max_right _ _)

lemma getD_lt_of_lt_argmaxFrom (x : ℚ) (l : List ℚ) :
    ∀ j, j < argmaxFrom x l → (x :: l).getD j 0 < maxFrom x l := by
  induction l generalizing x with
  | nil =>
    intro j hj
    simp [argmaxFrom] at hj
  | cons y ys ih =>
    intro j hj
    by_cases h : x < maxFrom y ys
    · have ha : argmaxFrom x (y :: ys) = argmaxFrom y ys + 1 := by
        simp [argmaxFrom, h]
      rw [ha] at hj
      have hmax : maxFrom x (y :: ys) = maxFrom y ys :=
        max_eq_right (le_of_lt h)
      cases j with
      | zero =>
        show x < maxFrom x (y :: ys)
        rw [hmax]
        exact h
      | succ jj =>
        have : jj < argmaxFrom y ys := by omega
        show (y :: ys).getD jj 0 < maxFrom x (y :: ys)
        rw [hmax]
        exact ih y jj this
    · have ha : argmaxFrom x (y :: ys) = 0 := by simp [argmaxFrom, h]
      rw [ha] at hj
      exact absurd hj (Nat.not_lt_zero j)

lemma argmaxIdx_lt_length (l : List ℚ) (h : l ≠ []) :
    argmaxIdx l < l.length := by
  cases l with
  | nil => exact absurd rfl h
  | cons x xs =>
    show argmaxFrom x xs < xs.length + 1
    have := argmaxFrom_le_length x xs
    omega

/-- C7: `np.argmax` as used at lines 157-158 returns, for each sample, the
index of the maximum softmax score, breaking ties towards the lowest index
(every earlier index holds a strictly smaller score); on a batch of 10
score rows of width 10, `predictIds` returns exactly 10 class ids, each in
[0, 9]. -/
theorem predictStableArgmax :
    (∀ l : List ℚ, l ≠ [] →
        argmaxIdx l < l.length
        ∧ (∀ j, j < l.length → l.getD j 0 ≤ l.getD (argmaxIdx l) 0)
        ∧ (∀ j, j < argmaxIdx l → l.getD j 0 < l.getD (argmaxIdx l) 0))
    ∧ (∀ preds : List (List ℚ), preds.length = 10 →
        (∀ pl, pl ∈ preds → pl.length = 10) →
        (predictIds preds).length = 10
        ∧ (∀ c, c ∈ predictIds preds → c ≤ 9)) := by
  constructor
  · intro l hl
    refine ⟨argmaxIdx_lt_length l hl, ?_, ?_⟩
    · intro j hj
      cases l with
      | nil => exact absurd rfl hl
      | cons x xs =>
        have hmax : (x :: xs).getD (argmaxIdx (x :: xs)) 0 = maxFrom x xs :=
          argmaxFrom_getD x xs
        rw [hmax]
        exact getD_le_maxFrom x xs j hj
    · intro j hj
      cases l with
      | nil => exact absurd rfl hl
      | cons x xs =>
        have hmax : (x :: xs).getD (argmaxIdx (x :: xs)) 0 = maxFrom x xs :=
          argmaxFrom_getD x xs
        rw [hmax]
        exact getD_lt_of_lt_argmaxFrom x xs j hj
  · intro preds hlen hrows
    constructor
    · simp [predictIds, hlen]
    · intro c hc
      simp only [predictIds, List.mem_map] at hc
      obtain ⟨pl, hpl, hcl⟩ := hc
      have hr : pl.length = 10 := hrows pl hpl
      have hne : pl ≠ [] := by
        intro hnil
        rw [hnil] at hr
        exact absurd hr (by simp)
      have := argmaxIdx_lt_length pl hne
      omega

/-- Witness for C7 on a uniform batch of 10 all-zero score rows. -/
theorem predictStableArgmax_witness :
    (argmaxIdx (List.replicate 10 (0 : ℚ)) < (List.replicate 10 (0 : ℚ)).length
      ∧ (∀ j, j < (List.replicate 10 (0 : ℚ)).length →
          (List.replicate 10 (0 : ℚ)).getD j 0
            ≤ (List.replicate 10 (0 : ℚ)).getD (argmaxIdx (List.replicate 10 (0 : ℚ))) 0)
      ∧ (∀ j, j < argmaxIdx (List.replicate 10 (0 : ℚ)) →
          (List.replicate 10 (0 : ℚ)).getD j 0
            < (List.replicate 10 (0 : ℚ)).getD (argmaxIdx (List.replicate 10 (0 : ℚ))) 0))
    ∧ ((predictIds (List.replicate 10 (List.replicate 10 (0 : ℚ)))).length = 10
      ∧ ∀ c, c ∈ predictIds (List.replicate 10 (List.replicate 10 (0 : ℚ))) → c ≤ 9) :=
  ⟨predictStableArgmax.1 (List.replicate 10 (0 : ℚ)) (by simp),
    predictStableArgmax.2 (List.replicate 10 (List.replicate 10 (0 : ℚ)))
      (by simp)
      (fun pl hpl => by rw [List.eq_of_mem_replicate hpl]; simp)⟩

lemma toCategorical_sum (k y : ℕ) :
    (toCategorical k y).sum = if y < k then 1 else 0 := by
  induction k with
  | zero => simp [toCategorical]
  | succ k ih =>
    rw [toCategorical, List.range_succ, List.map_append, List.sum_append]
    rw [show ((List.range k).map fun i => if i = y then (1 : ℚ) else 0)
        = toCategorical k y from rfl]
    rw [ih]
    by_cases h : y < k
    · have hk : ¬ (k = y) := by omega
      simp [h, hk, show y < k + 1 by omega]
    · by_cases h2 : k = y
      · simp [h, h2, show y < y + 1 by omega]
      · have h3 : ¬ y < k + 1 := by omega
        simp [h, h2, h3]

lemma toCategorical_count (k y : ℕ) :
    (toCategorical k y).count 1 = if y < k then 1 else 0 := by
  induction k with
  | zero => simp [toCategorical]
  | succ k ih =>
    rw [toCategorical, List.range_succ, List.map_append, List.count_append]
    rw [show ((List.range k).map fun i => if i = y then (1 : ℚ) else 0)
        = toCategorical k y from rfl]
    rw [ih]
    by_cases h : y < k
    · have hk : ¬ (k = y) := by omega
      simp [h, hk, show y < k + 1 by omega]
    · by_cases h2 : k = y
      · simp [h, h2, show y < y + 1 by omega]
      · have h3 : ¬ y < k + 1 := by omega
        simp [h, h2, h3]

/-- C8: `load_data` returns samples as single-channel 28×28 grids with
every normalized pixel (raw byte / 255) in [0, 1], and every label as a
one-hot vector: entries are 0 or 1, exactly one entry equals 1, and the
vector sums to 1. -/
theorem loadDataNormalizedOneHot :
    (∀ (raw : Fin 28 × Fin 28 → Fin 256) (q : Fin 28 × Fin 28),
        0 ≤ loadImage raw q ∧ loadImage raw q ≤ 1)
    ∧ (∀ k y, y < k →
        (toCategorical k y).sum = 1
        ∧ (toCategorical k y).count 1 = 1
        ∧ ∀ c, c ∈ toCategorical k y → c = 0 ∨ c = 1) := by
  constructor
  · intro raw q
    unfold loadImage normPixel
    constructor
    · positivity
    · rw [div_le_one (by norm_num)]
      have := (raw q).isLt
      exact_mod_cast Nat.le_of_lt_succ this
  · intro k y hy
    refine ⟨?_, ?_, ?_⟩
    · rw [toCategorical_sum]
      simp [hy]
    · rw [toCategorical_count]
      simp [hy]
    · intro c hc
      simp only [toCategorical, List.mem_map] at hc
      obtain ⟨i, -, hi⟩ := hc
      by_cases h : i = y
      · right
        rw [← hi]
        simp [h]
      · left
        rw [← hi]
        simp [h]

/-- Witness for C8 at a mid-grey image and class 3 of 10. -/
theorem loadDataNormalizedOneHot_witness :
    (0 ≤ loadImage (fun _ => (128 : Fin 256)) (0, 0)
      ∧ loadImage (fun _ => (128 : Fin 256)) (0, 0) ≤ 1)
    ∧ ((toCategorical 10 3).sum = 1
      ∧ (toCategorical 10 3).count 1 = 1
      ∧ ∀ c, c ∈ toCategorical 10 3 → c = 0 ∨ c = 1) :=
  ⟨loadDataNormalizedOneHot.1 (fun _ => (128 : Fin 256)) (0, 0),
    loadDataNormalizedOneHot.2 10 3 (by decide)⟩

/-- C9: on an empty dataset split (zero samples in either the training or
the held-out split), the fit fails fast — it returns the precondition
error, never a controller state, and zero epochs are executed. -/
theorem emptySplitFailsFast (v : ℕ → ℚ) (n : ℕ) :
    (fitModel 0 n v = Except.error "empty dataset split"
      ∧ fitRan (fitModel 0 n v) = false
      ∧ epochsRun (fitModel 0 n v) = 0)
    ∧ (fitModel n 0 v = Except.error "empty dataset split"
      ∧ fitRan (fitModel n 0 v) = false
      ∧ epochsRun (fitModel n 0 v) = 0) := by
  refine ⟨⟨?_, ?_, ?_⟩, ⟨?_, ?_, ?_⟩⟩ <;>
    simp [fitModel, fitRan, epochsRun]

/-- C10: the 10 report indices are drawn by `np.random.choice` with
replacement, so among the possible draws over the 10000-element test set
there are draws in which the same test sample — and hence the same
printed (true, predicted, index) tuple — appears more than once. -/
theorem choiceWithReplacementDuplicates (trueLab predLab : ℕ → ℕ) :
    ∃ l, possibleChoice 10000 10 l ∧ ¬ l.Nodup
      ∧ ¬ (sampledReport trueLab predLab l).Nodup := by
  refine ⟨List.replicate 10 0, ⟨?_, ?_⟩, ?_, ?_⟩
  · simp
  · intro i hi
    rw [List.eq_of_mem_replicate hi]
    norm_num
  · simp
  · rw [sampledReport, List.map_replicate]
    simp

/-- Witness for C10 with identity label maps. -/
theorem choiceWithReplacementDuplicates_witness :
    ∃ l, possibleChoice 10000 10 l ∧ ¬ l.Nodup
      ∧ ¬ (sampledReport id id l).Nodup :=
  choiceWithReplacementDuplicates id id

end MnistCnn2
